import Mathlib

/-!
Shallow embedding of the fzf pattern core (pattern.go in the provided source):
the extended-query parser, pattern construction with memoization, the match
orchestrator, and the chunk result cache. Go strings are modelled as rune lists
(`List Char`), machine integers as `Int`, the process-wide mutable tables as
explicitly threaded association lists, and the external collaborators of the
spec's section 6 (the five algo matchers, util.TrimLen, Tokenize/Transform) as
an `Ext` parameter. Case folding is modelled with `Char.toLower`.
-/

set_option linter.unusedVariables false

namespace Fzf

/-- Case mode. Modelled from the spec: the case mode is Respect, Ignore, or
Smart (section 4.1); the enumeration itself lives outside the provided file. -/
inductive Case where
  | CaseSmart
  | CaseIgnore
  | CaseRespect
deriving DecidableEq

open Case

/-- Match kinds, as the termType constants of the source. -/
inductive termType where
  | termFuzzy
  | termExact
  | termPrefix
  | termSuffix
  | termEqual
deriving DecidableEq

open termType

/-- One atomic match unit (struct term of the source). -/
structure term where
  typ : termType
  inv : Bool
  text : List Char
  caseSensitive : Bool
  origText : List Char
deriving DecidableEq

/-- An OR-group of terms (type termSet of the source). -/
abbrev termSet := List term

/-- Membership in the Go regexp class backslash-s, used by the
whitespace-splitting regex of the source. -/
def isSpaceGo (c : Char) : Bool :=
  c = ' ' || c = '\t' || c = '\n' || c = '\x0c' || c = '\r'

/-- Splitting on maximal whitespace runs, as the source's Split call on the
regex does: the pieces between matches, including empty end pieces. The
boolean records whether the scan is inside a whitespace run. -/
def splitWsGo : List Char → List Char → Bool → List (List Char)
  | [], cur, _ => [cur.reverse]
  | c :: rest, cur, inRun =>
    if isSpaceGo c then
      if inRun then splitWsGo rest [] true
      else cur.reverse :: splitWsGo rest [] true
    else splitWsGo rest (c :: cur) false

def splitWs (s : List Char) : List (List Char) := splitWsGo s [] false

/-- Case-sensitivity resolution, the condition the source writes twice:
sensitive iff the mode is Respect, or the mode is Smart and the text differs
from its lowercase form. -/
def resolveCS (cm : Case) (text : List Char) : Bool :=
  decide (cm = CaseRespect ∨ (cm = CaseSmart ∧ text ≠ text.map Char.toLower))

/-- Leading exclamation-mark handling of parseTerms: strip it and set the
inverted flag. -/
def stripInv (text : List Char) : Bool × List Char :=
  if text.head? = some '!' then (true, text.drop 1) else (false, text)

/-- Modifier handling of parseTerms, applied after the inversion strip, in
source order: a leading apostrophe flips the fuzzy default and is stripped;
else a leading caret with a trailing dollar gives termEqual with both
stripped; else a leading caret gives termPrefix; else a trailing dollar gives
termSuffix; otherwise the fuzzy-default kind stands. -/
def parseMod (fuzzy : Bool) (text : List Char) : termType × List Char :=
  if text.head? = some '\'' then
    ((if fuzzy then termExact else termFuzzy), text.drop 1)
  else if text.head? = some '^' then
    (if text.getLast? = some '$' then (termEqual, (text.drop 1).dropLast)
     else (termPrefix, text.drop 1))
  else if text.getLast? = some '$' then (termSuffix, text.dropLast)
  else ((if fuzzy then termFuzzy else termExact), text)

/-- Result of processing one token in parseTerms: the OR separator, a dropped
empty token, or an emitted term. -/
inductive TokStep where
  | bar
  | drop
  | emit (t : term)
deriving DecidableEq

/-- Per-token body of parseTerms: case folding, the OR separator, the
inversion strip, the modifier rules, and the empty-text drop. origText is
captured after folding and before stripping, exactly as the source does. -/
def mkTermOfToken (fuzzy : Bool) (cm : Case) (token : List Char) : TokStep :=
  let lowerText := token.map Char.toLower
  let cs := resolveCS cm token
  let text := if cs then token else lowerText
  let origText := text
  if text = ['|'] then TokStep.bar
  else
    let inv := (stripInv text).1
    let text1 := (stripInv text).2
    let typ := (parseMod fuzzy text1).1
    let text2 := (parseMod fuzzy text1).2
    if 0 < text2.length then
      TokStep.emit { typ := typ, inv := inv, text := text2,
                     caseSensitive := cs, origText := origText }
    else TokStep.drop

/-- The token loop of parseTerms, with the sets/set/switchSet state threaded
explicitly. -/
def parseTermsGo (fuzzy : Bool) (cm : Case) :
    List (List Char) → List termSet → termSet → Bool → List termSet
  | [], sets, set, _ => if 0 < set.length then sets ++ [set] else sets
  | tok :: rest, sets, set, switchSet =>
    match mkTermOfToken fuzzy cm tok with
    | TokStep.bar => parseTermsGo fuzzy cm rest sets set false
    | TokStep.drop => parseTermsGo fuzzy cm rest sets set switchSet
    | TokStep.emit t =>
      if switchSet then parseTermsGo fuzzy cm rest (sets ++ [set]) [t] true
      else parseTermsGo fuzzy cm rest sets (set ++ [t]) true

/-- parseTerms of the source. -/
def parseTerms (fuzzy : Bool) (cm : Case) (str : List Char) : List termSet :=
  parseTermsGo fuzzy cm (splitWs str) [] [] false

/-- Field-range payload (defined outside the provided file); only its presence
matters to the code under verification. -/
abbrev Range := Int × Int

/-- Delimiter payload (defined outside the provided file). -/
abbrev Delimiter := Option (List Char)

/-- A matched span: start, end, and the trimmed length of the matched field. -/
abbrev Offset := Int × Int × Int

/-- A projected field of a candidate. Modelled from the spec (section 3): the
sub-text, its prefix rune-length, and a trimmed length (the Token struct lives
outside the provided file). -/
structure Token where
  text : List Char
  prefixLength : Int
  trimLength : Int
deriving DecidableEq

/-- One candidate. Modelled from the spec (section 3) and from the fields the
provided file reads and writes: text, optional original text, the memoized
field projection, a stable index, offsets, color payload, and rank. -/
structure Item where
  text : List Char
  origText : Option (List Char)
  transformed : Option (List Token)
  index : Int
  offsets : List Offset
  colors : List (Int × Int)
  rank : Int × Int × Int
deriving DecidableEq

/-- The compiled pattern of the source. The procFun dispatch table, which
BuildPattern fills with the same five algo bindings for every Pattern, is
modelled by the external `Ext.matcher` parameter of the match functions. -/
structure Pattern where
  fuzzy : Bool
  extended : Bool
  caseSensitive : Bool
  forward : Bool
  text : List Char
  termSets : List termSet
  cacheable : Bool
  delimiter : Delimiter
  nth : List Range
deriving DecidableEq

/-- One termSet's test in BuildPattern's cacheability loop: the labelled break
fires at the first inverted term, or at index one when the set has more than
one term. -/
def setBreaksCache (ts : termSet) : Bool :=
  match ts with
  | [] => false
  | t :: rest => t.inv || !rest.isEmpty

/-- The cacheability loop of BuildPattern over all termSets. -/
def cacheableLoop : List termSet → Bool
  | [] => true
  | ts :: rest => if setBreaksCache ts then false else cacheableLoop rest

/-- The Trim call of BuildPattern: remove leading and trailing space
characters (spaces only, not all whitespace). -/
def trimSpaces (s : List Char) : List Char :=
  ((s.dropWhile (· = ' ')).reverse.dropWhile (· = ' ')).reverse

/-- The process-wide pattern memo table, threaded explicitly. -/
abbrev PatternMemo := List (List Char × Pattern)

def memoFind (m : PatternMemo) (k : List Char) : Option Pattern :=
  (m.find? (fun e => e.1 == k)).map (·.2)

/-- BuildPattern with the pattern memo passed explicitly. On a miss the new
Pattern is stored under the asString variable as the non-extended branch may
have reassigned it, that is under the case-folded text when the pattern
resolves case-insensitive. -/
def buildPattern (fuzzy extended : Bool) (cm : Case) (forward : Bool)
    (nth : List Range) (delimiter : Delimiter) (runes : List Char)
    (memo : PatternMemo) : Pattern × PatternMemo :=
  let asString := if extended then trimSpaces runes else runes
  match memoFind memo asString with
  | some cached => (cached, memo)
  | none =>
    let termSets := if extended then parseTerms fuzzy cm asString else []
    let cacheable := if extended then cacheableLoop termSets else true
    let caseSensitive := if extended then true else resolveCS cm asString
    let asString1 :=
      if extended then asString
      else (if caseSensitive then asString else asString.map Char.toLower)
    let ptr : Pattern :=
      { fuzzy := fuzzy, extended := extended, caseSensitive := caseSensitive,
        forward := forward, text := asString1, termSets := termSets,
        cacheable := cacheable, delimiter := delimiter, nth := nth }
    (ptr, (asString1, ptr) :: memo)

/-- AsString of the source. -/
def Pattern.AsString (p : Pattern) : List Char := p.text

/-- CacheKey of the source: non-extended patterns use the full (possibly
folded) query text; extended patterns join the origText of each singleton
non-inverted termSet with a single space. -/
def Pattern.CacheKey (p : Pattern) : List Char :=
  if !p.extended then p.AsString
  else List.intercalate [' ']
    (p.termSets.filterMap (fun ts =>
      match ts with
      | [t] => if t.inv then none else some t.origText
      | _ => none))

/-- The external matcher contract (section 6): case sensitivity, direction,
field text and pattern text to a span, with a negative start on no match. -/
abbrev MatcherFn := Bool → Bool → List Char → List Char → Int × Int

/-- External collaborators consumed by the orchestrator: the per-kind matcher
(modelling the procFun table), util.TrimLen, and the Tokenize/Transform
pipeline used when field ranges are configured. -/
structure Ext where
  matcher : termType → MatcherFn
  trimLen : List Char → Int
  tokenize : List Char → Delimiter → List Range → List Token

/-- prepareInput of the source: reuse the memoized field list when present,
otherwise project. The in-place write of the memo slot is modelled as pure
recomputation, which is idempotent (spec sections 4.3 and 5). -/
def prepareInput (ext : Ext) (p : Pattern) (item : Item) : List Token :=
  match item.transformed with
  | some ts => ts
  | none =>
    if 0 < p.nth.length then ext.tokenize item.text p.delimiter p.nth
    else [{ text := item.text, prefixLength := 0,
            trimLength := ext.trimLen item.text }]

/-- iter of the source: first field with a hit wins; its span is translated by
the field's prefix length and paired with the field's trimmed length. -/
def iter (pfun : MatcherFn) (tokens : List Token) (caseSensitive : Bool)
    (forward : Bool) (pat : List Char) : Int × Int × Int :=
  match tokens with
  | [] => (-1, -1, -1)
  | part :: rest =>
    let r := pfun caseSensitive forward part.text pat
    if 0 ≤ r.1 then (r.1 + part.prefixLength, r.2 + part.prefixLength, part.trimLength)
    else iter pfun rest caseSensitive forward pat

/-- basicMatch of the source. The direct algo.FuzzyMatch and
algo.ExactMatchNaive calls coincide with the termFuzzy and termExact entries
of the dispatch table. -/
def basicMatch (ext : Ext) (p : Pattern) (item : Item) : Int × Int × Int :=
  let input := prepareInput ext p item
  if p.fuzzy then iter (ext.matcher termFuzzy) input p.caseSensitive p.forward p.text
  else iter (ext.matcher termExact) input p.caseSensitive p.forward p.text

/-- Result of evaluating one termSet against an item: a satisfying offset, the
whole-item failure of an inverted hit, or no satisfaction. -/
inductive SetRes where
  | hit (o : Offset)
  | invHit
  | noMatch
deriving DecidableEq

/-- The inner loop of extendedMatch over one termSet's alternatives. -/
def evalTermSet (ext : Ext) (fw : Bool) (input : List Token) : List term → SetRes
  | [] => SetRes.noMatch
  | t :: rest =>
    let r := iter (ext.matcher t.typ) input t.caseSensitive fw t.text
    if 0 ≤ r.1 then (if t.inv then SetRes.invHit else SetRes.hit r)
    else if t.inv then SetRes.hit (0, 0, 0)
    else evalTermSet ext fw input rest

/-- The outer loop of extendedMatch over the termSets; SetRes.invHit is the
labelled break of the source. -/
def extendLoop (ext : Ext) (fw : Bool) (input : List Token) :
    List termSet → List Offset → List Offset
  | [], acc => acc
  | ts :: rest, acc =>
    match evalTermSet ext fw input ts with
    | SetRes.hit o => extendLoop ext fw input rest (acc ++ [o])
    | SetRes.invHit => acc
    | SetRes.noMatch => extendLoop ext fw input rest acc

/-- extendedMatch of the source. -/
def extendedMatch (ext : Ext) (p : Pattern) (item : Item) : List Offset :=
  extendLoop ext p.forward (prepareInput ext p item) p.termSets []

/-- MatchItem of the source: the boolean membership test. -/
def MatchItemB (ext : Ext) (p : Pattern) (item : Item) : Bool :=
  if !p.extended then decide (0 ≤ (basicMatch ext p item).1)
  else (extendedMatch ext p item).length == p.termSets.length

/-- Insertion of one offset into a start-sorted list. -/
def insertOffset (o : Offset) : List Offset → List Offset
  | [] => [o]
  | x :: xs => if o.1 ≤ x.1 then o :: x :: xs else x :: insertOffset o xs

/-- Modelled from the spec: the ByOrder sort of dupItem (defined outside the
provided file) orders the collected offsets by start position before they are
attached to the result Item (section 4.4). -/
def sortOffsets (l : List Offset) : List Offset := l.foldr insertOffset []

/-- dupItem of the source: a shallow copy carrying the sorted offsets and a
reset rank. -/
def dupItem (item : Item) (offsets : List Offset) : Item :=
  { text := item.text, origText := item.origText, transformed := item.transformed,
    index := item.index, offsets := sortOffsets offsets, colors := item.colors,
    rank := (0, 0, item.index) }

/-- The per-item body of matchChunk, both branches. -/
def matchOne (ext : Ext) (p : Pattern) (item : Item) : Option Item :=
  if !p.extended then
    let r := basicMatch ext p item
    if 0 ≤ r.1 then some (dupItem item [r]) else none
  else
    let offsets := extendedMatch ext p item
    if offsets.length = p.termSets.length then some (dupItem item offsets) else none

/-- matchChunk of the source: scan every item of the chunk in order, keeping
the matches. -/
def matchChunk (ext : Ext) (p : Pattern) (chunk : List Item) : List Item :=
  chunk.filterMap (matchOne ext p)

/-- Modelled from the spec: the chunk result store's Find and Add contract
(section 6), specialized to a single chunk: an association list from cache key
to stored results, where Add prepends and Find returns the newest binding. -/
abbrev ChunkCache := List (List Char × List Item)

def cacheFind (c : ChunkCache) (k : List Char) : Option (List Item) :=
  (c.find? (fun e => e.1 == k)).map (·.2)

def cacheAdd (c : ChunkCache) (k : List Char) (v : List Item) : ChunkCache :=
  (k, v) :: c

/-- The body of the ancestor loop of Match, over the list of drop lengths: at
each idx, try the key with its last idx characters removed, then the key with
its first idx characters removed, stopping at the first cached entry. -/
def ancestorLoop (cache : ChunkCache) (key : List Char) :
    List Nat → Option (List Item)
  | [] => none
  | idx :: rest =>
    match cacheFind cache (key.take (key.length - idx)) with
    | some e => some e
    | none =>
      match cacheFind cache (key.drop idx) with
      | some e => some e
      | none => ancestorLoop cache key rest

/-- The ancestor loop of Match: the for loop runs idx from one while idx is
below the key length, that is over the drop lengths one to length minus one. -/
def ancestorSearch (cache : ChunkCache) (key : List Char) : Option (List Item) :=
  ancestorLoop cache key (List.range' 1 (key.length - 1))

/-- Match of the source with the chunk cache passed explicitly: the exact-key
lookup with early return and the final store happen only for cacheable
patterns; the ancestor narrowing of the scan space is unconditional, exactly
as in the source. -/
def MatchGo (ext : Ext) (p : Pattern) (chunk : List Item) (cache : ChunkCache) :
    List Item × ChunkCache :=
  let cacheKey := p.CacheKey
  match (if p.cacheable then cacheFind cache cacheKey else none) with
  | some cached => (cached, cache)
  | none =>
    let space :=
      match ancestorSearch cache cacheKey with
      | some cached => cached
      | none => chunk
    let found := matchChunk ext p space
    (found, if p.cacheable then cacheAdd cache cacheKey found else cache)

/-- A default term, used only as the fallback of headD. -/
def defaultTerm : term :=
  { typ := termFuzzy, inv := false, text := [], caseSensitive := false, origText := [] }

theorem parseTermsGo_ne_nil (fuzzy : Bool) (cm : Case) (tokens : List (List Char))
    (sets : List termSet) (set : termSet) (sw : Bool)
    (hsets : ∀ ts ∈ sets, ts ≠ []) (hsw : sw = true → set ≠ []) :
    ∀ ts ∈ parseTermsGo fuzzy cm tokens sets set sw, ts ≠ [] := by
  induction tokens generalizing sets set sw with
  | nil =>
    intro ts hts
    simp only [parseTermsGo] at hts
    split at hts
    · rcases List.mem_append.1 hts with h | h
      · exact hsets ts h
      · rename_i hlen
        simp only [List.mem_singleton] at h
        subst h
        intro hnil
        rw [hnil] at hlen
        simp at hlen
    · exact hsets ts hts
  | cons tok rest ih =>
    intro ts hts
    cases hmk : mkTermOfToken fuzzy cm tok with
    | bar =>
      simp only [parseTermsGo, hmk] at hts
      exact ih sets set false hsets (by simp) ts hts
    | drop =>
      simp only [parseTermsGo, hmk] at hts
      exact ih sets set sw hsets hsw ts hts
    | emit t =>
      simp only [parseTermsGo, hmk] at hts
      by_cases hswt : sw = true
      · rw [if_pos hswt] at hts
        refine ih (sets ++ [set]) [t] true ?_ (by simp) ts hts
        intro ts' hts'
        rcases List.mem_append.1 hts' with h | h
        · exact hsets ts' h
        · simp only [List.mem_singleton] at h
          subst h
          exact hsw hswt
      · rw [if_neg hswt] at hts
        exact ih sets (set ++ [t]) true hsets (by simp) ts hts

/-- Every termSet produced by parseTerms is non-empty. -/
theorem parseTerms_sets_ne_nil (fuzzy : Bool) (cm : Case) (str : List Char) :
    ∀ ts ∈ parseTerms fuzzy cm str, ts ≠ [] :=
  parseTermsGo_ne_nil fuzzy cm (splitWs str) [] [] false (by simp) (by simp)

theorem setBreaksCache_false_iff (ts : termSet) (hne : ts ≠ []) :
    setBreaksCache ts = false ↔ ts.length = 1 ∧ ∀ t ∈ ts, t.inv = false := by
  cases ts with
  | nil => exact absurd rfl hne
  | cons t rest =>
    cases rest with
    | nil => simp [setBreaksCache]
    | cons u more => simp [setBreaksCache]

theorem cacheableLoop_iff (sets : List termSet) (hne : ∀ ts ∈ sets, ts ≠ []) :
    cacheableLoop sets = true ↔
      ∀ ts ∈ sets, ts.length = 1 ∧ ∀ t ∈ ts, t.inv = false := by
  induction sets with
  | nil => simp [cacheableLoop]
  | cons ts rest ih =>
    have hts := hne ts (by simp)
    have ihr := ih (fun ts' h => hne ts' (List.mem_cons_of_mem _ h))
    simp only [cacheableLoop]
    constructor
    · intro h
      split at h
      · exact absurd h (by simp)
      · rename_i hbr
        intro ts' hts'
        rcases List.mem_cons.1 hts' with h' | h'
        · subst h'
          exact (setBreaksCache_false_iff ts' hts).1 (by
            rcases hb : setBreaksCache ts' with _ | _
            · rfl
            · exact absurd hb hbr)
        · exact ihr.1 h ts' h'
    · intro h
      have h1 := h ts (by simp)
      have hbr : setBreaksCache ts = false := (setBreaksCache_false_iff ts hts).2 h1
      rw [hbr]
      simp only [Bool.false_eq_true, if_false]
      exact ihr.2 (fun ts' h' => h ts' (List.mem_cons_of_mem _ h'))

/-- C3: for every extended Pattern built by BuildPattern, the cacheable flag
is true iff every parsed TermSet contains exactly one Term and no Term is
inverted. -/
theorem cacheable_iff_singleton_noninverted (fuzzy : Bool) (cm : Case)
    (fw : Bool) (nth : List Range) (delim : Delimiter) (runes : List Char) :
    (buildPattern fuzzy true cm fw nth delim runes []).1.cacheable = true ↔
      ∀ ts ∈ (buildPattern fuzzy true cm fw nth delim runes []).1.termSets,
        ts.length = 1 ∧ ∀ t ∈ ts, t.inv = false := by
  have h1 : (buildPattern fuzzy true cm fw nth delim runes []).1.cacheable
      = cacheableLoop (parseTerms fuzzy cm (trimSpaces runes)) := rfl
  have h2 : (buildPattern fuzzy true cm fw nth delim runes []).1.termSets
      = parseTerms fuzzy cm (trimSpaces runes) := rfl
  rw [h1, h2]
  exact cacheableLoop_iff _ (parseTerms_sets_ne_nil fuzzy cm (trimSpaces runes))

/-- C6: parseTerms splits on whitespace runs and groups tokens so that the OR
separator joins the next term into the current group while plain whitespace
starts a new AND group, on the spec's three examples, for every fuzzy flag and
case mode. -/
theorem parseTerms_grouping_examples (fuzzy : Bool) (cm : Case) :
    (parseTerms fuzzy cm ("a | b c".toList)).map (fun ts => ts.map term.text)
        = [[['a'], ['b']], [['c']]] ∧
    (parseTerms fuzzy cm ("a b".toList)).map (fun ts => ts.map term.text)
        = [[['a']], [['b']]] ∧
    (parseTerms fuzzy cm ("a | b | c".toList)).map (fun ts => ts.map term.text)
        = [[['a'], ['b'], ['c']]] := by
  cases fuzzy <;> cases cm <;> exact ⟨by decide, by decide, by decide⟩

/-- C7: after stripping a leading exclamation mark, which sets the inverted
flag, exactly one modifier rule applies in priority order: a leading
apostrophe flips the default kind, Fuzzy versus Exact, and is stripped; else a
leading caret with a trailing dollar gives termEqual with both anchors
stripped; else a leading caret gives termPrefix; else a trailing dollar gives
termSuffix; otherwise the fuzzy-default kind stands. -/
theorem modifier_rules (fuzzy : Bool) :
    (∀ t : List Char, stripInv ('!' :: t) = (true, t)) ∧
    (∀ t : List Char, t.head? ≠ some '!' → stripInv t = (false, t)) ∧
    (∀ rest : List Char, parseMod fuzzy ('\'' :: rest)
        = ((if fuzzy then termExact else termFuzzy), rest)) ∧
    (∀ body : List Char, parseMod fuzzy ('^' :: (body ++ ['$'])) = (termEqual, body)) ∧
    (∀ body : List Char, body.getLast? ≠ some '$' →
        parseMod fuzzy ('^' :: body) = (termPrefix, body)) ∧
    (∀ body : List Char, body.head? ≠ some '\'' → body.head? ≠ some '^' →
        parseMod fuzzy (body ++ ['$']) = (termSuffix, body)) ∧
    (∀ body : List Char, body.head? ≠ some '\'' → body.head? ≠ some '^' →
        body.getLast? ≠ some '$' →
        parseMod fuzzy body = ((if fuzzy then termFuzzy else termExact), body)) := by
  refine ⟨?_, ?_, ?_, ?_, ?_, ?_, ?_⟩
  · intro t
    simp [stripInv]
  · intro t h
    simp [stripInv, h]
  · intro rest
    simp [parseMod]
  · intro body
    have hlast : ('^' :: (body ++ ['$'])).getLast? = some '$' := by
      rw [← List.cons_append, List.getLast?_concat]
    simp only [parseMod, List.head?_cons, hlast]
    simp [List.dropLast_concat]
  · intro body h
    have hlast : ¬ (('^' :: body).getLast? = some '$') := by
      intro hl
      cases body with
      | nil => simp at hl
      | cons b bs =>
        rw [List.getLast?_cons_cons] at hl
        exact h hl
    simp only [parseMod, List.head?_cons]
    rw [if_neg (by decide), if_neg hlast]
    simp
  · intro body h1 h2
    have hhd : (body ++ ['$']).head? ≠ some '\'' ∧ (body ++ ['$']).head? ≠ some '^' := by
      cases body with
      | nil => simp
      | cons b bs => simpa using ⟨by simpa using h1, by simpa using h2⟩
    simp only [parseMod, hhd.1, hhd.2, List.getLast?_concat]
    simp [List.dropLast_concat, hhd.1, hhd.2]
  · intro body h1 h2 h3
    simp [parseMod, h1, h2, h3]

/-- Witness for C7 at concrete tokens. -/
theorem modifier_rules_witness :
    stripInv ('!' :: ['a']) = (true, ['a']) ∧
    stripInv ['a'] = (false, ['a']) ∧
    parseMod true ('\'' :: ['x']) = (termExact, ['x']) ∧
    parseMod true ('^' :: (['x'] ++ ['$'])) = (termEqual, ['x']) ∧
    parseMod true ('^' :: ['x']) = (termPrefix, ['x']) ∧
    parseMod true (['x'] ++ ['$']) = (termSuffix, ['x']) ∧
    parseMod true ['x'] = (termFuzzy, ['x']) := by
  obtain ⟨h1, h2, h3, h4, h5, h6, h7⟩ := modifier_rules true
  exact ⟨h1 ['a'], h2 ['a'] (by decide), by simpa using h3 ['x'], h4 ['x'],
         h5 ['x'] (by decide), h6 ['x'] (by decide) (by decide),
         by simpa using h7 ['x'] (by decide) (by decide) (by decide)⟩

/-- The key BuildPattern looks up in the pattern memo: the query text, trimmed
of surrounding spaces in extended mode only. -/
def lookupKeyOf (extended : Bool) (runes : List Char) : List Char :=
  if extended then trimSpaces runes else runes

/-- The key BuildPattern stores the new Pattern under: the lookup key, except
that the non-extended branch reassigns it to the case-folded text when the
pattern resolves case-insensitive. -/
def storeKeyOf (extended : Bool) (cm : Case) (runes : List Char) : List Char :=
  let a := lookupKeyOf extended runes
  if extended then a
  else (if resolveCS cm a then a else a.map Char.toLower)

/-- On a memo hit, BuildPattern returns the cached Pattern and leaves the
memo unchanged. -/
theorem buildPattern_hit (fuzzy extended : Bool) (cm : Case) (fw : Bool)
    (nth : List Range) (delim : Delimiter) (runes : List Char)
    (memo : PatternMemo) (c : Pattern)
    (hfind : memoFind memo (lookupKeyOf extended runes) = some c) :
    buildPattern fuzzy extended cm fw nth delim runes memo = (c, memo) := by
  cases extended <;> simp only [lookupKeyOf, Bool.false_eq_true, if_true, if_false,
    reduceIte] at hfind <;> simp [buildPattern, hfind]

/-- On a memo miss, BuildPattern stores the new Pattern under the store key,
which is the folded text in the non-extended case-insensitive case. -/
theorem buildPattern_store (fuzzy extended : Bool) (cm : Case) (fw : Bool)
    (nth : List Range) (delim : Delimiter) (runes : List Char)
    (memo : PatternMemo)
    (hfind : memoFind memo (lookupKeyOf extended runes) = none) :
    (buildPattern fuzzy extended cm fw nth delim runes memo).2
      = (storeKeyOf extended cm runes,
         (buildPattern fuzzy extended cm fw nth delim runes memo).1) :: memo := by
  cases extended <;> simp only [lookupKeyOf, Bool.false_eq_true, if_true, if_false,
    reduceIte] at hfind <;> simp [buildPattern, hfind, storeKeyOf, lookupKeyOf]

/-- C9 counterexample: a non-extended case-insensitive pattern with an
uppercase query is stored under the folded text, so the repeated call looks up
the normalized text, misses, and constructs again, growing the memo. -/
theorem build_memo_not_reused :
    memoFind (buildPattern true false CaseIgnore true [] none ("F".toList) []).2
        ("F".toList) = none ∧
    buildPattern true false CaseIgnore true [] none ("F".toList)
        ((buildPattern true false CaseIgnore true [] none ("F".toList) []).2)
      ≠ buildPattern true false CaseIgnore true [] none ("F".toList) [] := by
  exact ⟨by decide, by decide⟩

/-- C9 amended: whenever the store key coincides with the lookup key, which
holds in extended mode and for non-extended patterns whose resolved text is
the query text itself, a repeated BuildPattern call with the same arguments
finds the entry stored under that key and returns the same Pattern with the
memo unchanged; for a non-extended case-insensitive query containing an
uppercase character the store key is the folded text, the repeat lookup under
the raw text misses, and a fresh Pattern is constructed instead. -/
theorem build_memo_reuse (fuzzy extended : Bool) (cm : Case) (fw : Bool)
    (nth : List Range) (delim : Delimiter) (runes : List Char) (memo : PatternMemo)
    (hkey : storeKeyOf extended cm runes = lookupKeyOf extended runes) :
    buildPattern fuzzy extended cm fw nth delim runes
        (buildPattern fuzzy extended cm fw nth delim runes memo).2
      = buildPattern fuzzy extended cm fw nth delim runes memo ∧
    memoFind (buildPattern fuzzy extended cm fw nth delim runes memo).2
        (lookupKeyOf extended runes)
      = some (buildPattern fuzzy extended cm fw nth delim runes memo).1 := by
  cases hfind : memoFind memo (lookupKeyOf extended runes) with
  | some c =>
    have h1 : buildPattern fuzzy extended cm fw nth delim runes memo = (c, memo) :=
      buildPattern_hit fuzzy extended cm fw nth delim runes memo c hfind
    rw [h1]
    exact ⟨buildPattern_hit fuzzy extended cm fw nth delim runes memo c hfind, hfind⟩
  | none =>
    have hst := buildPattern_store fuzzy extended cm fw nth delim runes memo hfind
    have h2 : memoFind (buildPattern fuzzy extended cm fw nth delim runes memo).2
        (lookupKeyOf extended runes)
        = some (buildPattern fuzzy extended cm fw nth delim runes memo).1 := by
      rw [hst, ← hkey]
      simp [memoFind]
    refine ⟨?_, h2⟩
    rw [buildPattern_hit fuzzy extended cm fw nth delim runes
        (buildPattern fuzzy extended cm fw nth delim runes memo).2
        (buildPattern fuzzy extended cm fw nth delim runes memo).1 h2]

/-- Witness for the amended C9 at a concrete extended query. -/
theorem build_memo_reuse_witness :
    buildPattern true true CaseSmart true [] none ("ab".toList)
        ((buildPattern true true CaseSmart true [] none ("ab".toList) []).2)
      = buildPattern true true CaseSmart true [] none ("ab".toList) [] ∧
    memoFind (buildPattern true true CaseSmart true [] none ("ab".toList) []).2
        (lookupKeyOf true ("ab".toList))
      = some (buildPattern true true CaseSmart true [] none ("ab".toList) []).1 :=
  build_memo_reuse true true CaseSmart true [] none ("ab".toList) [] (by decide)

/-- The candidate ancestor keys in the order the spec describes: for drop
length d from one to the key length minus one, first the key with its last d
characters removed, then the key with its first d characters removed. -/
def ancestorCandidates (key : List Char) : List (List Char) :=
  (List.range' 1 (key.length - 1)).flatMap
    (fun d => [key.take (key.length - d), key.drop d])

/-- The first cached entry among a list of candidate keys. -/
def firstCached (cache : ChunkCache) : List (List Char) → Option (List Item)
  | [] => none
  | k :: ks =>
    match cacheFind cache k with
    | some e => some e
    | none => firstCached cache ks

theorem ancestorLoop_eq_firstCached (cache : ChunkCache) (key : List Char)
    (idxs : List Nat) :
    ancestorLoop cache key idxs
      = firstCached cache
          (idxs.flatMap (fun d => [key.take (key.length - d), key.drop d])) := by
  induction idxs with
  | nil => rfl
  | cons i rest ih =>
    simp only [ancestorLoop, List.flatMap_cons, List.cons_append, List.nil_append,
      firstCached]
    cases cacheFind cache (key.take (key.length - i)) with
    | some e => rfl
    | none =>
      cases cacheFind cache (key.drop i) with
      | some e => rfl
      | none => exact ih

/-- The ancestor search of Match is the first cached entry over the spec's
candidate list. -/
theorem ancestorSearch_eq_firstCached (cache : ChunkCache) (key : List Char) :
    ancestorSearch cache key = firstCached cache (ancestorCandidates key) :=
  ancestorLoop_eq_firstCached cache key (List.range' 1 (key.length - 1))

/-- On an exact cache hit, Match of a cacheable pattern returns the cached
result and leaves the cache unchanged. -/
theorem matchGo_hit (ext : Ext) (p : Pattern) (chunk : List Item)
    (cache : ChunkCache) (e : List Item) (hc : p.cacheable = true)
    (hfind : cacheFind cache p.CacheKey = some e) :
    MatchGo ext p chunk cache = (e, cache) := by
  simp only [MatchGo, hc, if_true, hfind]

/-- On an exact cache miss, Match of a cacheable pattern scans the narrowed
space and returns it, and stores the result under the exact key. -/
theorem matchGo_miss (ext : Ext) (p : Pattern) (chunk : List Item)
    (cache : ChunkCache) (hc : p.cacheable = true)
    (hmiss : cacheFind cache p.CacheKey = none) :
    MatchGo ext p chunk cache
      = (matchChunk ext p
          (match ancestorSearch cache p.CacheKey with
           | some e => e
           | none => chunk),
         cacheAdd cache p.CacheKey
           (matchChunk ext p
             (match ancestorSearch cache p.CacheKey with
              | some e => e
              | none => chunk))) := by
  simp only [MatchGo, hc, if_true, hmiss]

/-- C8: when the exact cache key misses for a chunk, Match searches ancestors
for increasing drop length starting at one, at each length first the key with
its last characters removed and then the key with its first characters
removed; the first cached entry found becomes the scan space, and with no
ancestor found the full chunk is scanned. -/
theorem match_ancestor_order (ext : Ext) (p : Pattern) (chunk : List Item)
    (cache : ChunkCache) (hc : p.cacheable = true)
    (hmiss : cacheFind cache p.CacheKey = none) :
    (MatchGo ext p chunk cache).1
      = matchChunk ext p
          (match firstCached cache (ancestorCandidates p.CacheKey) with
           | some e => e
           | none => chunk) := by
  rw [matchGo_miss ext p chunk cache hc hmiss, ancestorSearch_eq_firstCached]

/-- A concrete external matcher family for witnesses: every kind matches when
the pattern text is a prefix of the field text. -/
def extW : Ext :=
  { matcher := fun _ _ _ text pat =>
      if pat.isPrefixOf text then ((0 : Int), (pat.length : Int)) else (-1, -1),
    trimLen := fun t => (t.length : Int),
    tokenize := fun _ _ _ => [] }

/-- A concrete candidate for witnesses. -/
def itemW : Item :=
  { text := "ab".toList, origText := none, transformed := none,
    index := 0, offsets := [], colors := [], rank := (0, 0, 0) }

/-- A second concrete candidate for witnesses. -/
def itemW2 : Item :=
  { text := "z".toList, origText := none, transformed := none,
    index := 1, offsets := [], colors := [], rank := (0, 0, 0) }

/-- A concrete cacheable extended pattern for witnesses. -/
def pW : Pattern := (buildPattern true true CaseSmart true [] none ("ab".toList) []).1

/-- Witness for C8 at a concrete cache holding an ancestor entry. -/
theorem match_ancestor_order_witness :
    (MatchGo extW pW [itemW, itemW2] [("a".toList, [itemW])]).1
      = matchChunk extW pW
          (match firstCached [("a".toList, [itemW])] (ancestorCandidates pW.CacheKey) with
           | some e => e
           | none => [itemW, itemW2]) :=
  match_ancestor_order extW pW [itemW, itemW2] [("a".toList, [itemW])]
    (by decide) (by decide)

/-- A concrete non-cacheable extended pattern: an AND of a plain term with an
inverted term. -/
def pN : Pattern := (buildPattern true true CaseSmart true [] none ("ab !c".toList) []).1

/-- C4 counterexample: a non-cacheable Pattern whose cache key has length two
gets its scan space narrowed to a cached ancestor entry, so Match does not
always scan the full chunk. -/
theorem noncacheable_narrowing_cex :
    pN.cacheable = false ∧
    (MatchGo extW pN [itemW] [("a".toList, [])]).1 ≠ matchChunk extW pN [itemW] := by
  exact ⟨by decide, by decide⟩

/-- C4 amended: for a non-cacheable Pattern, Match neither returns an exact
cached result nor stores its result, but the ancestor narrowing still applies:
the scan space is a cached ancestor entry of the pattern's cache key when one
exists, and the full chunk otherwise. -/
theorem noncacheable_no_exact_no_store (ext : Ext) (p : Pattern)
    (chunk : List Item) (cache : ChunkCache) (hc : p.cacheable = false) :
    MatchGo ext p chunk cache
      = (matchChunk ext p
          (match ancestorSearch cache p.CacheKey with
           | some e => e
           | none => chunk), cache) := by
  simp only [MatchGo, hc, if_false, Bool.false_eq_true]

/-- Witness for the amended C4 at a concrete narrowing cache. -/
theorem noncacheable_no_exact_no_store_witness :
    MatchGo extW pN [itemW] [("a".toList, [])]
      = (matchChunk extW pN
          (match ancestorSearch [("a".toList, [])] pN.CacheKey with
           | some e => e
           | none => [itemW]), [("a".toList, [])]) :=
  noncacheable_no_exact_no_store extW pN [itemW] [("a".toList, [])] (by decide)

/-- C10: every non-extended Pattern built by BuildPattern has cacheable true
and its cache key is its full query text, case-folded when resolved
case-insensitive, so basic-mode Match takes part in the exact result-cache
lookup and store under that text. -/
theorem basic_pattern_caching (fuzzy : Bool) (cm : Case) (fw : Bool)
    (nth : List Range) (delim : Delimiter) (runes : List Char) :
    (buildPattern fuzzy false cm fw nth delim runes []).1.cacheable = true ∧
    (buildPattern fuzzy false cm fw nth delim runes []).1.CacheKey
      = (buildPattern fuzzy false cm fw nth delim runes []).1.text ∧
    (buildPattern fuzzy false cm fw nth delim runes []).1.text
      = (if resolveCS cm runes then runes else runes.map Char.toLower) ∧
    (∀ ext cache chunk e,
      cacheFind cache (buildPattern fuzzy false cm fw nth delim runes []).1.CacheKey
          = some e →
      MatchGo ext (buildPattern fuzzy false cm fw nth delim runes []).1 chunk cache
          = (e, cache)) ∧
    (∀ ext cache chunk,
      cacheFind cache (buildPattern fuzzy false cm fw nth delim runes []).1.CacheKey
          = none →
      (MatchGo ext (buildPattern fuzzy false cm fw nth delim runes []).1 chunk cache).2
        = cacheAdd cache (buildPattern fuzzy false cm fw nth delim runes []).1.CacheKey
            (MatchGo ext (buildPattern fuzzy false cm fw nth delim runes []).1 chunk cache).1) := by
  refine ⟨rfl, rfl, rfl, ?_, ?_⟩
  · intro ext cache chunk e hfind
    exact matchGo_hit ext _ chunk cache e rfl hfind
  · intro ext cache chunk hmiss
    rw [matchGo_miss ext _ chunk cache rfl hmiss]

/-- A concrete non-extended pattern for the C10 witness. -/
def pB : Pattern := (buildPattern true false CaseIgnore true [] none ("F".toList) []).1

/-- Witness for C10 at a concrete non-extended pattern. -/
theorem basic_pattern_caching_witness :
    pB.cacheable = true ∧
    MatchGo extW pB [itemW] [(pB.CacheKey, [])] = ([], [(pB.CacheKey, [])]) ∧
    (MatchGo extW pB [itemW] []).2
      = cacheAdd [] pB.CacheKey (MatchGo extW pB [itemW] []).1 := by
  obtain ⟨h1, h2, h3, h4, h5⟩ :=
    basic_pattern_caching true CaseIgnore true [] none ("F".toList)
  exact ⟨h1, h4 extW [(pB.CacheKey, [])] [itemW] [] (by decide),
         h5 extW [] [itemW] (by decide)⟩

/-- C5 counterexample: under CaseIgnore the query Foo builds a cacheable
Pattern whose cache key is the folded text, not the pre-fold token text the
claim asserts. -/
theorem cacheKey_not_prefold :
    (buildPattern true true CaseIgnore true [] none ("Foo".toList) []).1.cacheable
        = true ∧
    (buildPattern true true CaseIgnore true [] none ("Foo".toList) []).1.CacheKey
        = "foo".toList ∧
    "foo".toList ≠ "Foo".toList := by
  exact ⟨by decide, by decide, by decide⟩

/-- The origText of an emitted term is its source token after case folding and
before modifier stripping. -/
theorem mkTermOfToken_emit_origText (fuzzy : Bool) (cm : Case) (tok : List Char)
    (t : term) (h : mkTermOfToken fuzzy cm tok = TokStep.emit t) :
    t.origText = (if resolveCS cm tok then tok else tok.map Char.toLower) := by
  by_cases hcs : resolveCS cm tok = true <;>
    simp only [mkTermOfToken, hcs, if_true, Bool.false_eq_true, if_false,
      reduceIte] at h <;>
    [skip; skip] <;>
  · split at h
    · exact absurd h (by simp)
    · split at h
      · injection h with h'
        rw [← h']
        simp [hcs]
      · exact absurd h (by simp)

/-- Every term of every set produced by the parseTerms loop satisfies any
property enjoyed by the accumulator terms and by every term the remaining
tokens can emit. -/
theorem parseTermsGo_origin (fuzzy : Bool) (cm : Case) (P : term → Prop) :
    ∀ (tokens : List (List Char)) (sets : List termSet) (set : termSet) (sw : Bool),
    (∀ ts ∈ sets, ∀ t ∈ ts, P t) → (∀ t ∈ set, P t) →
    (∀ tok ∈ tokens, ∀ t, mkTermOfToken fuzzy cm tok = TokStep.emit t → P t) →
    ∀ ts ∈ parseTermsGo fuzzy cm tokens sets set sw, ∀ t ∈ ts, P t := by
  intro tokens
  induction tokens with
  | nil =>
    intro sets set sw hsets hset htok ts hts t ht
    simp only [parseTermsGo] at hts
    split at hts
    · rcases List.mem_append.1 hts with h | h
      · exact hsets ts h t ht
      · simp only [List.mem_singleton] at h
        subst h
        exact hset t ht
    · exact hsets ts hts t ht
  | cons tok rest ih =>
    intro sets set sw hsets hset htok ts hts t ht
    have htok' : ∀ tok' ∈ rest, ∀ t',
        mkTermOfToken fuzzy cm tok' = TokStep.emit t' → P t' :=
      fun tok' h => htok tok' (List.mem_cons_of_mem _ h)
    cases hmk : mkTermOfToken fuzzy cm tok with
    | bar =>
      simp only [parseTermsGo, hmk] at hts
      exact ih sets set false hsets hset htok' ts hts t ht
    | drop =>
      simp only [parseTermsGo, hmk] at hts
      exact ih sets set sw hsets hset htok' ts hts t ht
    | emit t0 =>
      have hPt0 : P t0 := htok tok (by simp) t0 hmk
      simp only [parseTermsGo, hmk] at hts
      by_cases hswt : sw = true
      · rw [if_pos hswt] at hts
        refine ih (sets ++ [set]) [t0] true ?_ ?_ htok' ts hts t ht
        · intro ts' h' t' ht'
          rcases List.mem_append.1 h' with h | h
          · exact hsets ts' h t' ht'
          · simp only [List.mem_singleton] at h
            subst h
            exact hset t' ht'
        · intro t' ht'
          simp only [List.mem_singleton] at ht'
          subst ht'
          exact hPt0
      · rw [if_neg hswt] at hts
        refine ih sets (set ++ [t0]) true hsets ?_ htok' ts hts t ht
        intro t' ht'
        rcases List.mem_append.1 ht' with h | h
        · exact hset t' h
        · simp only [List.mem_singleton] at h
          subst h
          exact hPt0

/-- When every set is a singleton with a non-inverted term, the CacheKey
filter keeps every group's origText. -/
theorem cacheKeyList_of_cacheable (sets : List termSet)
    (h : ∀ ts ∈ sets, ts.length = 1 ∧ ∀ t ∈ ts, t.inv = false) :
    (sets.filterMap (fun ts =>
        match ts with
        | [t] => if t.inv then none else some t.origText
        | _ => none))
      = sets.map (fun ts => (ts.headD defaultTerm).origText) := by
  induction sets with
  | nil => rfl
  | cons ts rest ih =>
    obtain ⟨hlen, hinv⟩ := h ts (by simp)
    have ihr := ih (fun ts' h' => h ts' (List.mem_cons_of_mem _ h'))
    cases ts with
    | nil => simp at hlen
    | cons t more =>
      cases more with
      | nil =>
        have hti : t.inv = false := hinv t (by simp)
        simp [List.filterMap_cons, hti, ihr]
      | cons u more2 => simp at hlen

/-- C5 amended: for every cacheable extended Pattern built by BuildPattern,
CacheKey is the space-joined origText of each singleton non-inverted TermSet,
in group order, where a Term's origText is its source token after case
folding, folded when the token resolves case-insensitive, and before modifier
stripping. -/
theorem cacheKey_joins_postfold_texts (fuzzy : Bool) (cm : Case) (fw : Bool)
    (nth : List Range) (delim : Delimiter) (runes : List Char)
    (hc : (buildPattern fuzzy true cm fw nth delim runes []).1.cacheable = true) :
    ((buildPattern fuzzy true cm fw nth delim runes []).1.CacheKey
      = List.intercalate [' ']
          (((buildPattern fuzzy true cm fw nth delim runes []).1.termSets).map
            (fun ts => (ts.headD defaultTerm).origText))) ∧
    (∀ ts ∈ (buildPattern fuzzy true cm fw nth delim runes []).1.termSets, ∀ t ∈ ts,
      ∃ tok ∈ splitWs (trimSpaces runes),
        mkTermOfToken fuzzy cm tok = TokStep.emit t ∧
        t.origText = (if resolveCS cm tok then tok else tok.map Char.toLower)) := by
  have hsets := (cacheable_iff_singleton_noninverted fuzzy cm fw nth delim runes).1 hc
  constructor
  · have hck : (buildPattern fuzzy true cm fw nth delim runes []).1.CacheKey
        = List.intercalate [' ']
            (((buildPattern fuzzy true cm fw nth delim runes []).1.termSets).filterMap
              (fun ts =>
                match ts with
                | [t] => if t.inv then none else some t.origText
                | _ => none)) := rfl
    rw [hck, cacheKeyList_of_cacheable _ hsets]
  · intro ts hts t ht
    refine parseTermsGo_origin fuzzy cm
      (fun t' => ∃ tok ∈ splitWs (trimSpaces runes),
        mkTermOfToken fuzzy cm tok = TokStep.emit t' ∧
        t'.origText = (if resolveCS cm tok then tok else tok.map Char.toLower))
      (splitWs (trimSpaces runes)) [] [] false (by simp) (by simp) ?_ ts hts t ht
    intro tok htokmem t' hemit
    exact ⟨tok, htokmem, hemit, mkTermOfToken_emit_origText fuzzy cm tok t' hemit⟩

/-- Witness for the amended C5 at the query Foo under CaseIgnore. -/
theorem cacheKey_joins_postfold_texts_witness :
    (buildPattern true true CaseIgnore true [] none ("Foo".toList) []).1.CacheKey
      = List.intercalate [' ']
          (((buildPattern true true CaseIgnore true [] none ("Foo".toList) []).1.termSets).map
            (fun ts => (ts.headD defaultTerm).origText)) :=
  (cacheKey_joins_postfold_texts true CaseIgnore true [] none ("Foo".toList) (by decide)).1

theorem extendLoop_shift (ext : Ext) (fw : Bool) (input : List Token)
    (sets : List termSet) (acc : List Offset) :
    extendLoop ext fw input sets acc = acc ++ extendLoop ext fw input sets [] := by
  induction sets generalizing acc with
  | nil => simp [extendLoop]
  | cons ts rest ih =>
    cases hts : evalTermSet ext fw input ts with
    | hit o =>
      simp only [extendLoop, hts]
      rw [ih (acc ++ [o]), ih ([] ++ [o])]
      simp
    | invHit => simp [extendLoop, hts]
    | noMatch =>
      simp only [extendLoop, hts]
      exact ih acc

theorem extendLoop_length_le (ext : Ext) (fw : Bool) (input : List Token)
    (sets : List termSet) (acc : List Offset) :
    (extendLoop ext fw input sets acc).length ≤ acc.length + sets.length := by
  induction sets generalizing acc with
  | nil => simp [extendLoop]
  | cons ts rest ih =>
    cases hts : evalTermSet ext fw input ts with
    | hit o =>
      simp only [extendLoop, hts]
      have := ih (acc ++ [o])
      simp only [List.length_append, List.length_singleton, List.length_cons,
        List.length_nil] at this ⊢
      omega
    | invHit =>
      simp only [extendLoop, hts, List.length_cons]
      omega
    | noMatch =>
      simp only [extendLoop, hts, List.length_cons]
      have := ih acc
      omega

theorem extendLoop_length_lt_of_invHit (ext : Ext) (fw : Bool) (input : List Token)
    (sets : List termSet) (acc : List Offset) (ts : termSet) (hmem : ts ∈ sets)
    (hinv : evalTermSet ext fw input ts = SetRes.invHit) :
    (extendLoop ext fw input sets acc).length < acc.length + sets.length := by
  induction sets generalizing acc with
  | nil => simp at hmem
  | cons ts0 rest ih =>
    rcases List.mem_cons.1 hmem with h | h
    · subst h
      simp only [extendLoop, hinv, List.length_cons]
      omega
    · cases hts0 : evalTermSet ext fw input ts0 with
      | hit o =>
        simp only [extendLoop, hts0, List.length_cons]
        have := ih (acc ++ [o]) h
        simp only [List.length_append, List.length_singleton, List.length_cons,
          List.length_nil] at this
        omega
      | invHit =>
        simp only [extendLoop, hts0, List.length_cons]
        omega
      | noMatch =>
        simp only [extendLoop, hts0, List.length_cons]
        have := ih acc h
        omega

theorem extendLoop_length_iff (ext : Ext) (fw : Bool) (input : List Token)
    (sets : List termSet) :
    (extendLoop ext fw input sets []).length = sets.length ↔
      ∀ ts ∈ sets, ∃ o, evalTermSet ext fw input ts = SetRes.hit o := by
  induction sets with
  | nil => simp [extendLoop]
  | cons ts rest ih =>
    cases hts : evalTermSet ext fw input ts with
    | hit o =>
      simp only [extendLoop, hts]
      rw [extendLoop_shift ext fw input rest ([] ++ [o])]
      constructor
      · intro h
        intro ts' hts'
        rcases List.mem_cons.1 hts' with h' | h'
        · subst h'
          exact ⟨o, hts⟩
        · refine (ih.1 ?_) ts' h'
          simp only [List.nil_append, List.length_append, List.length_singleton,
            List.length_cons, List.length_nil] at h ⊢
          omega
      · intro h
        have := ih.2 (fun ts' h' => h ts' (List.mem_cons_of_mem _ h'))
        simp only [List.nil_append, List.length_append, List.length_singleton,
          List.length_cons, List.length_nil]
        omega
    | invHit =>
      simp only [extendLoop, hts]
      constructor
      · intro h
        simp only [List.length_nil, List.length_cons] at h
        omega
      · intro h
        obtain ⟨o, ho⟩ := h ts (by simp)
        rw [hts] at ho
        exact absurd ho (by simp)
    | noMatch =>
      simp only [extendLoop, hts]
      constructor
      · intro h
        have hle := extendLoop_length_le ext fw input rest ([] : List Offset)
        simp only [List.length_nil, Nat.zero_add, List.length_cons] at hle h
        omega
      · intro h
        obtain ⟨o, ho⟩ := h ts (by simp)
        rw [hts] at ho
        exact absurd ho (by simp)

/-- C1: in extended evaluation the item matches iff every TermSet is
satisfied, equivalently iff the number of collected offsets equals the number
of TermSets; a non-inverted Term that hits satisfies its group with its
translated offset; an inverted Term that hits fails the whole item
immediately, short-circuiting all remaining groups; and an inverted Term that
does not hit satisfies its group with the zero-length placeholder offset. -/
theorem extended_match_semantics (ext : Ext) (p : Pattern) (item : Item)
    (hext : p.extended = true) :
    (MatchItemB ext p item = true ↔
      (extendedMatch ext p item).length = p.termSets.length) ∧
    ((extendedMatch ext p item).length = p.termSets.length ↔
      ∀ ts ∈ p.termSets, ∃ o,
        evalTermSet ext p.forward (prepareInput ext p item) ts = SetRes.hit o) ∧
    (∀ (t : term) (rest : List term),
      t.inv = false →
      0 ≤ (iter (ext.matcher t.typ) (prepareInput ext p item)
            t.caseSensitive p.forward t.text).1 →
      evalTermSet ext p.forward (prepareInput ext p item) (t :: rest)
        = SetRes.hit (iter (ext.matcher t.typ) (prepareInput ext p item)
            t.caseSensitive p.forward t.text)) ∧
    (∀ (pfun : MatcherFn) (part : Token) (toks : List Token) (cs fw : Bool)
        (pat : List Char),
      0 ≤ (pfun cs fw part.text pat).1 →
      iter pfun (part :: toks) cs fw pat
        = ((pfun cs fw part.text pat).1 + part.prefixLength,
           (pfun cs fw part.text pat).2 + part.prefixLength, part.trimLength)) ∧
    (∀ (ts : termSet) (rest : List termSet) (acc : List Offset),
      evalTermSet ext p.forward (prepareInput ext p item) ts = SetRes.invHit →
      extendLoop ext p.forward (prepareInput ext p item) (ts :: rest) acc = acc) ∧
    (∀ ts ∈ p.termSets,
      evalTermSet ext p.forward (prepareInput ext p item) ts = SetRes.invHit →
      MatchItemB ext p item = false) ∧
    (∀ (t : term) (rest : List term),
      t.inv = true →
      (iter (ext.matcher t.typ) (prepareInput ext p item)
          t.caseSensitive p.forward t.text).1 < 0 →
      evalTermSet ext p.forward (prepareInput ext p item) (t :: rest)
        = SetRes.hit (0, 0, 0)) := by
  refine ⟨?_, ?_, ?_, ?_, ?_, ?_, ?_⟩
  · simp [MatchItemB, hext]
  · exact extendLoop_length_iff ext p.forward (prepareInput ext p item) p.termSets
  · intro t rest hinv hge
    simp only [evalTermSet]
    rw [if_pos hge, if_neg (by simp [hinv])]
  · intro pfun part toks cs fw pat hge
    simp only [iter]
    rw [if_pos hge]
  · intro ts rest acc hinv
    simp [extendLoop, hinv]
  · intro ts hmem hinv
    have hlt := extendLoop_length_lt_of_invHit ext p.forward
      (prepareInput ext p item) p.termSets [] ts hmem hinv
    simp only [List.length_nil, Nat.zero_add] at hlt
    have : (extendedMatch ext p item).length ≠ p.termSets.length := by
      have he : extendedMatch ext p item
          = extendLoop ext p.forward (prepareInput ext p item) p.termSets [] := rfl
      rw [he]
      omega
    simp [MatchItemB, hext, this]
  · intro t rest hinv hlt
    simp only [evalTermSet]
    rw [if_neg (by omega), if_pos (by simp [hinv])]

/-- A concrete candidate containing the forbidden text of pN. -/
def itemC : Item :=
  { text := "ca".toList, origText := none, transformed := none,
    index := 2, offsets := [], colors := [], rank := (0, 0, 0) }

/-- Witness for C1 at concrete patterns and items. -/
theorem extended_match_semantics_witness :
    (MatchItemB extW pN itemW = true ↔
      (extendedMatch extW pN itemW).length = pN.termSets.length) ∧
    (evalTermSet extW pN.forward (prepareInput extW pN itemW)
        [{ typ := termFuzzy, inv := true, text := ['c'], caseSensitive := false,
           origText := ['!', 'c'] }] = SetRes.hit (0, 0, 0)) ∧
    MatchItemB extW pN itemC = false := by
  obtain ⟨h1, _, _, _, _, _, h7⟩ := extended_match_semantics extW pN itemW (by decide)
  obtain ⟨_, _, _, _, _, k6, _⟩ := extended_match_semantics extW pN itemC (by decide)
  refine ⟨h1, h7 _ [] (by decide) (by decide), ?_⟩
  exact k6 [{ typ := termFuzzy, inv := true, text := ['c'], caseSensitive := false,
              origText := ['!', 'c'] }] (by decide) (by decide)

theorem prepareInput_dup (ext : Ext) (p : Pattern) (it : Item) (o : List Offset) :
    prepareInput ext p (dupItem it o) = prepareInput ext p it := rfl

theorem dupItem_dupItem (it : Item) (o1 o2 : List Offset) :
    dupItem (dupItem it o1) o2 = dupItem it o2 := rfl

theorem matchOne_dup (ext : Ext) (p : Pattern) (it : Item) (o : List Offset) :
    matchOne ext p (dupItem it o) = matchOne ext p it := by
  unfold matchOne basicMatch extendedMatch
  rw [prepareInput_dup]
  simp only [dupItem_dupItem]

/-- The offsets matchChunk attaches to a matching item. -/
def matchOffsets (ext : Ext) (p : Pattern) (it : Item) : List Offset :=
  if !p.extended then [basicMatch ext p it] else extendedMatch ext p it

theorem matchOne_eq (ext : Ext) (p : Pattern) (it : Item) :
    matchOne ext p it
      = (if MatchItemB ext p it then some (dupItem it (matchOffsets ext p it))
         else none) := by
  unfold matchOne MatchItemB matchOffsets
  split
  · split
    · rename_i hge
      rw [if_pos (by simpa using hge)]
    · rename_i hge
      rw [if_neg (by simpa using hge)]
  · split
    · rename_i hlen
      rw [if_pos (by simpa using hlen)]
    · rename_i hlen
      rw [if_neg (by simpa using hlen)]

/-- Every matchChunk result is the dup image of the matching items, in chunk
order: this is the shape of every entry the result cache ever stores. -/
theorem matchChunk_as_dup_image (ext : Ext) (p : Pattern) (chunk : List Item) :
    matchChunk ext p chunk
      = ((chunk.filter (fun it => MatchItemB ext p it)).map
          (fun it => dupItem it (matchOffsets ext p it))) := by
  induction chunk with
  | nil => rfl
  | cons it rest ih =>
    cases hmi : MatchItemB ext p it with
    | true =>
      simp only [matchChunk, List.filterMap_cons, matchOne_eq, hmi, if_true,
        List.filter_cons, List.map_cons]
      simpa [matchChunk] using ih
    | false =>
      simp only [matchChunk, List.filterMap_cons, matchOne_eq, hmi,
        Bool.false_eq_true, if_false, List.filter_cons]
      simpa [matchChunk] using ih

/-- Scanning the dup image of any superset of the matching items yields
exactly the full-chunk scan result. -/
theorem matchChunk_dup_superset (ext : Ext) (p : Pattern) (chunk : List Item)
    (q : Item → Bool) (offq : Item → List Offset)
    (hsup : ∀ it ∈ chunk, MatchItemB ext p it = true → q it = true) :
    matchChunk ext p ((chunk.filter q).map (fun it => dupItem it (offq it)))
      = matchChunk ext p chunk := by
  induction chunk with
  | nil => rfl
  | cons it rest ih =>
    have ihr := ih (fun it' h' hm => hsup it' (List.mem_cons_of_mem _ h') hm)
    cases hq : q it with
    | true =>
      simp only [List.filter_cons, hq, if_true, List.map_cons, matchChunk,
        List.filterMap_cons, matchOne_dup]
      cases matchOne ext p it with
      | none => exact ihr
      | some x =>
        simpa [matchChunk] using ihr
    | false =>
      have hnone : matchOne ext p it = none := by
        rw [matchOne_eq]
        cases hmi : MatchItemB ext p it with
        | true => exact absurd (hsup it (by simp) hmi) (by simp [hq])
        | false => simp
      simp only [List.filter_cons, hq, Bool.false_eq_true, if_false, matchChunk,
        List.filterMap_cons, hnone]
      exact ihr

/-- C2: for a cacheable Pattern whose exact key misses, when Match reuses a
prefix or suffix ancestor cache entry as the scan space and that entry is the
dup image of a superset of the items the pattern accepts, which is the shape
of every entry the cache stores, the produced match list is identical to the
direct full-chunk scan, matchChunk applied to the whole chunk. -/
theorem match_reuse_equiv (ext : Ext) (p : Pattern) (chunk : List Item)
    (cache : ChunkCache) (entry : List Item) (q : Item → Bool)
    (offq : Item → List Offset)
    (hc : p.cacheable = true)
    (hmiss : cacheFind cache p.CacheKey = none)
    (hanc : ancestorSearch cache p.CacheKey = some entry)
    (hentry : entry = (chunk.filter q).map (fun it => dupItem it (offq it)))
    (hsup : ∀ it ∈ chunk, MatchItemB ext p it = true → q it = true) :
    (MatchGo ext p chunk cache).1 = matchChunk ext p chunk := by
  rw [matchGo_miss ext p chunk cache hc hmiss]
  simp only [hanc]
  rw [hentry]
  exact matchChunk_dup_superset ext p chunk q offq hsup

/-- The superset predicate of the C2 witness. -/
def qW : Item → Bool := fun it => it.text == "ab".toList

/-- The offset payload of the C2 witness cache entry. -/
def offqW : Item → List Offset := fun _ => [((0 : Int), (2 : Int), (2 : Int))]

/-- The C2 witness cache entry: the dup image of the qW-filtered chunk. -/
def entryW : List Item :=
  (([itemW, itemW2].filter qW).map (fun it => dupItem it (offqW it)))

/-- Witness for C2 at a concrete ancestor cache entry. -/
theorem match_reuse_equiv_witness :
    (MatchGo extW pW [itemW, itemW2] [("a".toList, entryW)]).1
      = matchChunk extW pW [itemW, itemW2] :=
  match_reuse_equiv extW pW [itemW, itemW2] [("a".toList, entryW)] entryW qW offqW
    (by decide) (by decide) (by decide) rfl (by decide)

end Fzf
